import Mathlib

/-!
Verification of the news-radar scoring/aggregation pipeline (`app.py`).

The development shallowly embeds the core pipeline of the source file:
static keyword/weight tables, the scorer (`recency_score`,
`detect_assets_and_impact`, `domain_weight`, the buzz formula), the
identity hash (`hash_id`, a genuine SHA-256 over the concatenated
UTF-8 bytes of title and link), the fetch orchestrator (`fetch_all`,
with per-source failure isolation modelled by an `Except`-valued fetch
collaborator and an `Except`-valued per-entry timestamp step) and the
trend aggregator (`aggregate_trends`).

Modelling conventions, stated once here and referenced below:
* Python floats are modelled as exact numbers: table weights and
  impact/source-weight values as `ℚ`, quantities flowing through
  `exp`/`log` (recency, buzz) as `ℝ`.  The `round(x, 3)` / `round(x, 5)`
  display rounding applied when the row dictionary is built is omitted;
  all claims are about the computed scores themselves.
* `tz_now()` reads the ambient wall clock.  Every function of the
  source that calls it implicitly is embedded with an explicit `now`
  parameter standing for the value the ambient clock would have
  returned at that call.
* Timestamps are real numbers counting seconds (the source only ever
  uses differences of aware datetimes, i.e. `total_seconds()`).
* The dataframe column `assets` is stored in the source as the string
  `", ".join(sorted(assets))` and split back on `","` by
  `aggregate_trends`; for the concrete asset names of the tables (no
  commas, no surrounding spaces) this round-trips, so rows here carry
  the sorted asset list directly.
* Python `str.lower` is modelled by mapping `Char.toLower` (ASCII);
  every key of the keyword table is ASCII.
-/

/-! ## Static tables (`SOURCE_WEIGHTS`, `IMPACT_KEYWORDS`, `KEYWORD_TO_ASSETS`) -/

/-- `HALF_LIFE_HOURS = 6.0` from the source configuration block. -/
def HALF_LIFE_HOURS : ℚ := 6

/-- `MAX_ITEMS_PER_FEED = 50` from the source configuration block. -/
def MAX_ITEMS_PER_FEED : ℕ := 50

/-- `SOURCE_WEIGHTS`: domain → weight table from the source. -/
def SOURCE_WEIGHTS : List (String × ℚ) :=
  [("cnbc.com", 1.0), ("marketwatch.com", 0.9), ("wsj.com", 0.9),
   ("ft.com", 0.9), ("cnn.com", 0.7), ("yahoo.com", 0.8),
   ("coindesk.com", 0.8), ("cointelegraph.com", 0.7),
   ("bloomberglinea.com", 0.9), ("eleconomista.es", 0.8),
   ("expansion.com", 0.8), ("elpais.com", 0.7), ("prensa.com", 0.8),
   ("anpanama.com", 0.7), ("laestrella.com.pa", 0.7), ("google.com", 0.6)]

/-- `DEFAULT_SOURCE_WEIGHT = 0.6` from the source. -/
def DEFAULT_SOURCE_WEIGHT : ℚ := 0.6

/-- `IMPACT_KEYWORDS`: keyword → impact-weight table, in source order. -/
def IMPACT_KEYWORDS : List (String × ℚ) :=
  [("cpi", 1.0), ("inflation", 1.0), ("ppi", 0.9), ("gdp", 0.9),
   ("payrolls", 1.0), ("jobs report", 1.0), ("unemployment", 0.9),
   ("fomc", 1.0), ("fed", 1.0), ("rate hike", 1.0), ("rate cut", 1.0),
   ("pce", 0.9), ("retail sales", 0.8), ("ism", 0.8), ("pmi", 0.8),
   ("ecb", 1.0), ("bank of england", 0.9), ("banxico", 0.8),
   ("banrep", 0.8), ("bcb", 0.8), ("bcrp", 0.7),
   ("opec", 1.0), ("production cut", 0.9), ("supply", 0.7),
   ("brent", 0.7), ("wti", 0.7),
   ("earnings", 1.0), ("guidance", 1.0), ("downgrade", 0.9), ("upgrade", 0.9),
   ("merger", 1.0), ("acquisition", 1.0), ("antitrust", 0.8), ("lawsuit", 0.7),
   ("dividend", 0.7), ("buyback", 0.7),
   ("etf", 0.9), ("sec", 0.8), ("hack", 0.9), ("halving", 0.7),
   ("binance", 0.8), ("coinbase", 0.8), ("bitcoin", 0.8), ("ethereum", 0.7)]

/-- `KEYWORD_TO_ASSETS`: keyword → asset-list table from the source. -/
def KEYWORD_TO_ASSETS : List (String × List String) :=
  [("fed", ["USD", "US500", "XAUUSD", "US10Y"]),
   ("cpi", ["USD", "US500", "XAUUSD"]),
   ("inflation", ["USD", "US500", "XAUUSD"]),
   ("ppi", ["USD", "US500"]),
   ("gdp", ["USD", "US500"]),
   ("payrolls", ["USD", "US500", "XAUUSD"]),
   ("unemployment", ["USD", "US500"]),
   ("fomc", ["USD", "US500", "XAUUSD"]),
   ("rate hike", ["USD", "US500", "XAUUSD"]),
   ("rate cut", ["USD", "US500", "XAUUSD"]),
   ("pce", ["USD", "US500", "XAUUSD"]),
   ("retail sales", ["USD", "US500"]),
   ("ecb", ["EURUSD", "DE40", "EU50"]),
   ("bank of england", ["GBPUSD", "UK100"]),
   ("banxico", ["USDMXN"]),
   ("banrep", ["USDCOP"]),
   ("bcb", ["USDBRL"]),
   ("bcrp", ["USD/PEN"]),
   ("opec", ["OIL", "USDCAD", "USDNOK"]),
   ("production cut", ["OIL"]),
   ("brent", ["OIL"]),
   ("wti", ["OIL"]),
   ("earnings", ["US500", "US100"]),
   ("guidance", ["US500", "US100"]),
   ("downgrade", ["US500", "US100"]),
   ("upgrade", ["US500", "US100"]),
   ("merger", ["US500", "US100"]),
   ("acquisition", ["US500", "US100"]),
   ("bitcoin", ["BTCUSD"]),
   ("ethereum", ["ETHUSD"]),
   ("etf", ["BTCUSD", "US500"]),
   ("sec", ["BTCUSD", "US500"]),
   ("hack", ["BTCUSD", "ETHUSD"]),
   ("binance", ["BTCUSD", "ETHUSD"]),
   ("coinbase", ["BTCUSD", "ETHUSD"])]

/-! ## String helpers shared by the scorer -/

/-- Python `s.lower()` restricted to ASCII (all table keys are ASCII). -/
def lowerString (s : String) : String := ⟨s.data.map Char.toLower⟩

/-- Does `needle` occur at the head of `haystack`?  Backs the Python
substring test `k in text`. -/
def headMatch : List Char → List Char → Bool
  | [], _ => true
  | _ :: _, [] => false
  | a :: as_, b :: bs => a == b && headMatch as_ bs

/-- Does `needle` occur anywhere inside `haystack`?  This is the Python
substring test `k in text` on the character lists of the strings. -/
def containsSeg (needle : List Char) : List Char → Bool
  | [] => needle.isEmpty
  | c :: rest => headMatch needle (c :: rest) || containsSeg needle rest

/-- Is some position of the text a `$` immediately followed by an
uppercase ASCII letter?  `re.findall(r"\$[A-Z]{1,5}", text)` is nonempty
exactly when such a position exists (a match needs at least one
uppercase letter after the `$`), and the source only uses the matches to
insert the two fixed index assets, so only nonemptiness matters. -/
def hasTicker : List Char → Bool
  | [] => false
  | [_] => false
  | c :: d :: rest => (c == '$' && 'A' ≤ d && d ≤ 'Z') || hasTicker (d :: rest)

/-! ## Scorer: `domain_weight`, `recency_score`, `detect_assets_and_impact` -/

/-- `urlparse(link).netloc`: the host part between `"://"` and the next
`/` (empty when the link has no scheme part, as `urlparse` returns for
scheme-less strings). -/
def netloc (s : String) : String :=
  match s.splitOn "://" with
  | _ :: rest :: _ => rest.takeWhile (fun c => c != '/')
  | _ => ""

/-- `domain_weight(link)` from the source: lowercase the host, keep the
last two dot-separated labels, look the domain up in `SOURCE_WEIGHTS`
with default `DEFAULT_SOURCE_WEIGHT`.  The Python try/except around
the body can never fire in this total model. -/
def domain_weight (link : String) : ℚ :=
  let n := lowerString (netloc link)
  let parts := n.splitOn "."
  let dom := if parts.length ≥ 2 then
      String.intercalate "." (parts.drop (parts.length - 2)) else n
  ((SOURCE_WEIGHTS.lookup dom).getD DEFAULT_SOURCE_WEIGHT)

/-- `recency_score(dt)` from the source.  The source reads the wall
clock via `tz_now()` inside the function body; `now` is that ambient
clock value (seconds), `dt` the entry timestamp (seconds):
`hours = max((now - dt)/3600, 0); exp(-(log 2 / HALF_LIFE_HOURS) * hours)`. -/
noncomputable def recency_score (now dt : ℝ) : ℝ :=
  Real.exp (-(Real.log 2 / (HALF_LIFE_HOURS : ℝ)) * max ((now - dt) / 3600) 0)

/-- The buzz formula of the orchestrator:
`buzz = rec * (0.6 + 0.3*impact + 0.1*source_w)`. -/
noncomputable def buzz_formula (rec impact source_w : ℝ) : ℝ :=
  rec * (0.6 + 0.3 * impact + 0.1 * source_w)

/-- Add one element to a duplicate-free accumulator (Python `set.add`). -/
def addAsset (l : List String) (a : String) : List String :=
  if a ∈ l then l else l ++ [a]

/-- Add many elements (Python `set.update`). -/
def addAssets : List String → List String → List String
  | l, [] => l
  | l, a :: rest => addAssets (addAsset l a) rest

/-- `KEYWORD_TO_ASSETS.get(k, [])` from the source. -/
def assetsFor (k : String) : List String :=
  (KEYWORD_TO_ASSETS.lookup k).getD []

/-- Python `sorted(...)` on a list of strings. -/
def sortStrings (l : List String) : List String :=
  List.insertionSort (fun a b : String => a ≤ b) l

/-- `detect_assets_and_impact(text)` from the source: lowercase the
text, fold over the keyword table adding the weight and the mapped
assets of each keyword occurring as a substring, then add the two index
assets when a `$TICKER` token occurs in the original-case text, and
return `(sorted(list(assets)), impact)`.  The Python set of assets is
represented by a duplicate-free list; `sorted` makes the set-iteration
order irrelevant. -/
def detect_assets_and_impact (text : String) : List String × ℚ :=
  let textL := lowerString text
  let folded := IMPACT_KEYWORDS.foldl
    (fun (acc : List String × ℚ) kw =>
      if containsSeg kw.1.data textL.data then
        (addAssets acc.1 (assetsFor kw.1), acc.2 + kw.2)
      else acc)
    ([], 0)
  let withTicker :=
    if hasTicker text.data then addAssets folded.1 ["US100", "US500"]
    else folded.1
  (sortStrings withTicker, folded.2)

/-! ## SHA-256 and `hash_id`

The source computes `hashlib.sha256()` over `title.encode("utf-8")`
followed by `link.encode("utf-8")` — i.e. the digest of the bare
concatenation of the two byte strings — and keeps the first 16 hex
characters.  The hash below is a genuine FIPS 180-4 SHA-256: the round
and initialisation constants are derived, as in the standard, from the
cube and square roots of the first 64 primes. -/

/-- Truncate to a 32-bit word. -/
def w32 (x : ℕ) : ℕ := x % 4294967296

/-- Rotate a 32-bit word right by `n`. -/
def rotr (n x : ℕ) : ℕ := (x >>> n) + (x % 2 ^ n) * 2 ^ (32 - n)

/-- Integer cube root by binary search (auxiliary, fuelled). -/
def icbrtGo : ℕ → ℕ → ℕ → ℕ → ℕ
  | 0, _, lo, _ => lo
  | fuel + 1, n, lo, hi =>
    let mid := (lo + hi) / 2
    if hi ≤ lo + 1 then lo
    else if mid ^ 3 ≤ n then icbrtGo fuel n mid hi
    else icbrtGo fuel n lo mid

/-- Integer cube root. -/
def icbrt (n : ℕ) : ℕ := icbrtGo 200 n 0 (n + 1)

/-- The first 64 primes, used for the SHA-256 constants. -/
def sha64Primes : List ℕ :=
  [2, 3, 5, 7, 11, 13, 17, 19, 23, 29, 31, 37, 41, 43, 47, 53,
   59, 61, 67, 71, 73, 79, 83, 89, 97, 101, 103, 107, 109, 113, 127, 131,
   137, 139, 149, 151, 157, 163, 167, 173, 179, 181, 191, 193, 197, 199, 211, 223,
   227, 229, 233, 239, 241, 251, 257, 263, 269, 271, 277, 281, 283, 293, 307, 311]

/-- SHA-256 round constants: fractional parts of the cube roots of the
first 64 primes. -/
def shaK : List ℕ := sha64Primes.map (fun p => icbrt (p * 2 ^ 96) % 2 ^ 32)

/-- SHA-256 initial hash value: fractional parts of the square roots of
the first 8 primes. -/
def shaH0 : List ℕ := (sha64Primes.take 8).map (fun p => Nat.sqrt (p * 2 ^ 64) % 2 ^ 32)

/-- The eight 32-bit working variables of SHA-256. -/
structure Sha8 where
  a : ℕ
  b : ℕ
  c : ℕ
  d : ℕ
  e : ℕ
  f : ℕ
  g : ℕ
  h : ℕ

def smallSigma0 (x : ℕ) : ℕ := rotr 7 x ^^^ rotr 18 x ^^^ (x >>> 3)

def smallSigma1 (x : ℕ) : ℕ := rotr 17 x ^^^ rotr 19 x ^^^ (x >>> 10)

def bigSigma0 (x : ℕ) : ℕ := rotr 2 x ^^^ rotr 13 x ^^^ rotr 22 x

def bigSigma1 (x : ℕ) : ℕ := rotr 6 x ^^^ rotr 11 x ^^^ rotr 25 x

def chFn (x y z : ℕ) : ℕ := (x &&& y) ^^^ ((x ^^^ 4294967295) &&& z)

def majFn (x y z : ℕ) : ℕ := (x &&& y) ^^^ (x &&& z) ^^^ (y &&& z)

/-- Big-endian bytes of `n`, `k` bytes wide. -/
def beBytes : ℕ → ℕ → List ℕ
  | 0, _ => []
  | k + 1, n => beBytes k (n / 256) ++ [n % 256]

/-- FIPS 180-4 padding: append `0x80`, zeros to 56 mod 64, and the
64-bit big-endian bit length. -/
def padMessage (msg : List ℕ) : List ℕ :=
  let L := msg.length
  msg ++ [128] ++ List.replicate ((119 - L % 64) % 64) 0 ++ beBytes 8 (8 * L)

/-- Group bytes into big-endian 32-bit words. -/
def toWords : List ℕ → List ℕ
  | b0 :: b1 :: b2 :: b3 :: rest => (((b0 * 256 + b1) * 256 + b2) * 256 + b3) :: toWords rest
  | _ => []

/-- Group words into 16-word blocks. -/
def toBlocks16 : List ℕ → List (List ℕ)
  | w0 :: w1 :: w2 :: w3 :: w4 :: w5 :: w6 :: w7 ::
    w8 :: w9 :: w10 :: w11 :: w12 :: w13 :: w14 :: w15 :: rest =>
      [w0, w1, w2, w3, w4, w5, w6, w7, w8, w9, w10, w11, w12, w13, w14, w15]
        :: toBlocks16 rest
  | _ => []

/-- Extend a block with `k` further message-schedule words. -/
def extendWords : ℕ → List ℕ → List ℕ
  | 0, w => w
  | k + 1, w =>
    let n := w.length
    let t := w32 (smallSigma1 (w.getD (n - 2) 0) + w.getD (n - 7) 0 +
      smallSigma0 (w.getD (n - 15) 0) + w.getD (n - 16) 0)
    extendWords k (w ++ [t])

/-- One SHA-256 round. -/
def roundStep (st : Sha8) (kw : ℕ × ℕ) : Sha8 :=
  let t1 := w32 (st.h + bigSigma1 st.e + chFn st.e st.f st.g + kw.1 + kw.2)
  let t2 := w32 (bigSigma0 st.a + majFn st.a st.b st.c)
  ⟨w32 (t1 + t2), st.a, st.b, st.c, w32 (st.d + t1), st.e, st.f, st.g⟩

/-- Compress one 16-word block into the running state. -/
def processBlock (st : Sha8) (block : List ℕ) : Sha8 :=
  let w := extendWords 48 block
  let t := (shaK.zip w).foldl roundStep st
  ⟨w32 (st.a + t.a), w32 (st.b + t.b), w32 (st.c + t.c), w32 (st.d + t.d),
   w32 (st.e + t.e), w32 (st.f + t.f), w32 (st.g + t.g), w32 (st.h + t.h)⟩

/-- SHA-256 of a byte list, as the final eight-word state. -/
def sha256State (msg : List ℕ) : Sha8 :=
  (toBlocks16 (toWords (padMessage msg))).foldl processBlock
    ⟨shaH0.getD 0 0, shaH0.getD 1 0, shaH0.getD 2 0, shaH0.getD 3 0,
     shaH0.getD 4 0, shaH0.getD 5 0, shaH0.getD 6 0, shaH0.getD 7 0⟩

/-- Lowercase hex digit. -/
def hexDigit (n : ℕ) : Char := if n < 10 then Char.ofNat (48 + n) else Char.ofNat (87 + n)

/-- Lowercase hex of one 32-bit word, 8 digits. -/
def hexWord (x : ℕ) : List Char :=
  [28, 24, 20, 16, 12, 8, 4, 0].map (fun s => hexDigit ((x >>> s) &&& 15))

/-- `hashlib.sha256(msg).hexdigest()`. -/
def sha256Hex (msg : List ℕ) : String :=
  let st := sha256State msg
  ⟨([st.a, st.b, st.c, st.d, st.e, st.f, st.g, st.h].map hexWord).flatten⟩

/-- UTF-8 bytes of one character. -/
def utf8Char (c : Char) : List ℕ :=
  let n := c.toNat
  if n < 128 then [n]
  else if n < 2048 then [192 + n / 64, 128 + n % 64]
  else if n < 65536 then [224 + n / 4096, 128 + n / 64 % 64, 128 + n % 64]
  else [240 + n / 262144, 128 + n / 4096 % 64, 128 + n / 64 % 64, 128 + n % 64]

/-- `s.encode("utf-8")` as a byte list. -/
def utf8Bytes (s : String) : List ℕ := (s.data.map utf8Char).flatten

/-- `hash_id(title, link)` from the source: SHA-256 over the UTF-8
bytes of `title or ""` followed by those of `link or ""` (Python `or`
maps `None` — here `none` — to the empty string), truncated to the
first 16 hex characters. -/
def hash_id (title link : Option String) : String :=
  (sha256Hex (utf8Bytes (title.getD "") ++ utf8Bytes (link.getD ""))).take 16

/-! ## Fetch orchestrator: `to_dt`, row construction, `fetch_all`

A raw feed entry (`feedparser` output) carries optional title, summary
and link, and optional parsed timestamps.  A present timestamp is
modelled as `Except Unit ℝ`: `.ok t` when
`datetime(*parsed[:6], ...)` succeeds with value `t` (seconds), and
`.error ()` when that construction raises (a malformed parsed tuple) —
the per-entry failure mode caught by the per-source try/except. -/

structure RawEntry where
  title : Option String
  summary : Option String
  link : Option String
  published_parsed : Option (Except Unit ℝ)
  updated_parsed : Option (Except Unit ℝ)

/-- `to_dt(entry)` from the source: the published time when present,
else the updated time, else the current time `tz_now()` (here the
ambient clock value `now`).  A present but malformed timestamp makes
the datetime construction raise, which propagates as `.error`. -/
def to_dt (now : ℝ) (e : RawEntry) : Except Unit ℝ :=
  match e.published_parsed with
  | some t => t
  | none =>
    match e.updated_parsed with
    | some t => t
    | none => .ok now

/-- One row of the dataframe built by `fetch_all` (the `rows.append`
dictionary), with `assets` as the sorted asset list (file header note)
and the display rounding omitted. -/
structure Row where
  id : String
  time : ℝ
  time_ago_min : ℤ
  title : String
  summary : String
  link : String
  assets : List String
  impact : ℚ
  source_weight : ℚ
  recency : ℝ
  buzz_score : ℝ
  source : String

/-- The per-entry body of the `fetch_all` loop: default the text
fields, resolve the timestamp, run the scorer, and build the row.
`.error` when the timestamp construction raises. -/
noncomputable def mkRow (now : ℝ) (url : String) (e : RawEntry) : Except Unit Row :=
  match to_dt now e with
  | .error _ => .error ()
  | .ok dt =>
    let title := e.title.getD ""
    let summary := e.summary.getD ""
    let link := e.link.getD ""
    let ai := detect_assets_and_impact (title ++ " " ++ summary)
    let source_w := domain_weight link
    let rec' := recency_score now dt
    .ok ⟨hash_id (some title) (some link), dt,
      ⌊max ((now - dt) / 60) 0⌋, title, summary, link,
      ai.1, ai.2, source_w, rec',
      buzz_formula rec' (ai.2 : ℝ) ((source_w : ℝ)),
      if (netloc link).isEmpty then netloc url else netloc link⟩

/-- `df.drop_duplicates(subset=["id"])` keeps the first row seen for
each `id`; `seen` is the set of ids already kept. -/
def dedupByIdAux (seen : List String) : List Row → List Row
  | [] => []
  | r :: rs =>
    if r.id ∈ seen then dedupByIdAux seen rs
    else r :: dedupByIdAux (r.id :: seen) rs

/-- `df.drop_duplicates(subset=["id"])`. -/
def dedupById (rows : List Row) : List Row := dedupByIdAux [] rows

/-- `df.sort_values("buzz_score", ascending=False)`.  The model fixes
one permutation realising the descending order; the source's default
`kind="quicksort"` leaves the relative order of equal keys
implementation-defined, so nothing below relies on this model's tie
order. -/
noncomputable def sortByBuzzDesc (rows : List Row) : List Row :=
  List.insertionSort (fun r s => s.buzz_score ≤ r.buzz_score) rows

/-- The inner entry loop of one source: each entry appends its row to
the accumulated list; the first raising entry aborts the loop (the
exception is caught by the per-source try/except), keeping the rows
already appended. -/
noncomputable def processEntries (now : ℝ) (url : String) : List RawEntry → List Row
  | [] => []
  | e :: es =>
    match mkRow now url e with
    | .ok r => r :: processEntries now url es
    | .error _ => []

/-- The rows contributed by one feed source: none when the fetch/parse
collaborator fails, else the rows of the first `maxItems` entries up to
the first per-entry failure. -/
noncomputable def sourceRows (fetch' : String → Except Unit (List RawEntry))
    (now : ℝ) (maxItems : ℕ) (url : String) : List Row :=
  match fetch' url with
  | .error _ => []
  | .ok es => processEntries now url (es.take maxItems)

/-- The `rows` list accumulated by `fetch_all` across all sources. -/
noncomputable def collectRows (fetch' : String → Except Unit (List RawEntry))
    (now : ℝ) (maxItems : ℕ) : List String → List Row
  | [] => []
  | url :: rest => sourceRows fetch' now maxItems url ++ collectRows fetch' now maxItems rest

/-- `fetch_all(feeds, max_items)` from the source: collect rows over
all sources, return the explicitly empty frame when nothing was
collected, else drop duplicate ids and sort by descending buzz.  The
empty dataframe's column shape is carried by the `Row` type. -/
noncomputable def fetch_all (fetch' : String → Except Unit (List RawEntry))
    (now : ℝ) (feeds : List String) (maxItems : ℕ) : List Row :=
  let rows := collectRows fetch' now maxItems feeds
  if rows.isEmpty then [] else sortByBuzzDesc (dedupById rows)

/-! ## Trend aggregator: `aggregate_trends`

`aggregate_trends` consumes the stored dataframe, whose numeric columns
hold the decimal-rounded scores — exact decimal rationals — so its
embedding is fully computable over `ℚ`.  Only the three columns the
source reads are modelled. -/

structure DfRow where
  time : ℚ
  assets : List String
  buzz_score : ℚ
deriving DecidableEq

structure TrendRow where
  asset : String
  count : ℕ
  avg_buzz : ℚ
deriving DecidableEq

/-- The explode step: one `(asset, buzz_score)` pair per asset of each
row, in row order; rows with no assets contribute nothing (the `if not
assets: continue` branch). -/
def explodeAssets : List DfRow → List (String × ℚ)
  | [] => []
  | r :: rs => (r.assets.map (fun a => (a, r.buzz_score))) ++ explodeAssets rs

/-- One group of the `groupby("asset")` aggregation: the mention count
and the arithmetic mean of the buzz scores of the pairs keyed `a`. -/
def trendFor (pairs : List (String × ℚ)) (a : String) : TrendRow :=
  let vals := (pairs.filter (fun p => p.1 == a)).map Prod.snd
  ⟨a, vals.length, vals.sum / (vals.length : ℚ)⟩

/-- The order of `grp.sort_values(["count","avg_buzz"], ascending=[False,False])`:
count descending, ties by avg_buzz descending. -/
def trendLe (t u : TrendRow) : Prop :=
  u.count < t.count ∨ (t.count = u.count ∧ u.avg_buzz ≤ t.avg_buzz)

instance : DecidableRel trendLe := fun t u => by unfold trendLe; infer_instance

/-- `aggregate_trends(df, within_minutes)` from the source, with the
implicit `tz_now()` read passed as `now`: keep rows with
`time >= now - timedelta(minutes=within_minutes)`, explode assets,
group by asset with count and mean (`groupby` sorts the group keys),
and sort by `(count, avg_buzz)` descending; each empty intermediate
state returns the explicitly empty frame.  The source's local names
`cutoff`, `dff` and `assets_expanded` are inlined. -/
def aggregate_trends (df : List DfRow) (within_minutes : ℚ) (now : ℚ) : List TrendRow :=
  if df.isEmpty then [] else
  if (df.filter (fun r => now - within_minutes * 60 ≤ r.time)).isEmpty then [] else
  if (explodeAssets (df.filter (fun r => now - within_minutes * 60 ≤ r.time))).isEmpty then []
  else
    List.insertionSort trendLe
      ((sortStrings
          ((explodeAssets (df.filter (fun r => now - within_minutes * 60 ≤ r.time))).map
            Prod.fst).eraseDups).map
        (trendFor (explodeAssets (df.filter (fun r => now - within_minutes * 60 ≤ r.time)))))

/-! ## Specification-side definitions (refinement targets)

The next three definitions are NOT translated from the source; they
follow the specification's wording for the scorer's impact/asset
detection, to be compared with `detect_assets_and_impact` above. -/

/-- Spec wording: the sum of the weights of the distinct keywords of
the impact table whose lowercase form occurs as a substring of the
lowercased text. -/
def specImpact (text : String) : ℚ :=
  ((IMPACT_KEYWORDS.filter
      (fun kw => containsSeg (lowerString kw.1).data (lowerString text).data)).map
    Prod.snd).sum

/-- Spec wording: each `$` + 1–5 uppercase letters match adds the two
fixed index assets. -/
def tickerAssets (text : String) : Finset String :=
  if hasTicker text.data then {"US100", "US500"} else ∅

/-- Spec wording: the union of the matched keywords' mapped asset
lists, plus the ticker assets. -/
def specAssets (text : String) : Finset String :=
  ((IMPACT_KEYWORDS.filter
      (fun kw => containsSeg (lowerString kw.1).data (lowerString text).data)).map
    (fun kw => (assetsFor kw.1).toFinset)).foldr (· ∪ ·) ∅ ∪ tickerAssets text

/-! ## Concrete data used by witnesses and counterexamples -/

/-- A concrete row (used only to instantiate theorems). -/
noncomputable def exampleRow : Row :=
  ⟨"i", 0, 0, "t", "s", "l", [], 0, 0, 1, 1, "src"⟩

/-- An entry whose timestamp parses fine. -/
noncomputable def eGoodA : RawEntry :=
  ⟨some "Fed signals rate cut", some "", some "https://www.cnbc.com/x", some (.ok 0), none⟩

/-- An entry whose present timestamp makes the datetime construction
raise during per-entry processing. -/
noncomputable def eBadA : RawEntry := ⟨some "Broken", none, none, some (.error ()), none⟩

/-- An entry of the second, fully successful source. -/
noncomputable def eGoodB : RawEntry :=
  ⟨some "Oil rises", some "", some "https://www.ft.com/y", some (.ok 0), none⟩

/-- A deterministic fetch collaborator: source `"A"` parses but its
second entry raises mid-processing; every other source succeeds. -/
noncomputable def exFetch : String → Except Unit (List RawEntry) := fun url =>
  if url == "A" then .ok [eGoodA, eBadA] else .ok [eGoodB]

/-! ## Shared lemmas about `recency_score` -/

theorem half_life_cast : ((HALF_LIFE_HOURS : ℚ) : ℝ) = 6 := by
  norm_num [HALF_LIFE_HOURS]

theorem recency_score_pos (now dt : ℝ) : 0 < recency_score now dt :=
  Real.exp_pos _

theorem recency_score_le_one (now dt : ℝ) : recency_score now dt ≤ 1 := by
  unfold recency_score
  rw [Real.exp_le_one_iff]
  have h1 : 0 ≤ Real.log 2 / ((HALF_LIFE_HOURS : ℚ) : ℝ) := by
    rw [half_life_cast]
    exact div_nonneg (Real.log_nonneg one_le_two) (by norm_num)
  have h2 : (0 : ℝ) ≤ max ((now - dt) / 3600) 0 := le_max_right _ _
  have := mul_nonneg h1 h2
  linarith

theorem recency_score_eq_one (now dt : ℝ) (h : now ≤ dt) : recency_score now dt = 1 := by
  unfold recency_score
  have h1 : (now - dt) / 3600 ≤ 0 := by linarith
  rw [max_eq_right h1, mul_zero, Real.exp_zero]

theorem recency_score_strict_anti (now dt dt' : ℝ) (h1 : dt' < dt) (h2 : dt ≤ now) :
    recency_score now dt' < recency_score now dt := by
  unfold recency_score
  rw [Real.exp_lt_exp]
  have ha : (0 : ℝ) ≤ (now - dt) / 3600 := by linarith
  have ha' : (now - dt) / 3600 < (now - dt') / 3600 := by linarith
  rw [max_eq_left ha, max_eq_left (by linarith)]
  have hlam : 0 < Real.log 2 / ((HALF_LIFE_HOURS : ℚ) : ℝ) := by
    rw [half_life_cast]
    exact div_pos (Real.log_pos (by norm_num)) (by norm_num)
  nlinarith

theorem recency_score_lt_one (now dt : ℝ) (h : dt < now) : recency_score now dt < 1 := by
  have := recency_score_strict_anti now now dt h le_rfl
  rwa [recency_score_eq_one now now le_rfl] at this

/-- C5: the recency factor equals `exp(-(ln 2 / 6) * max(0, age_hours))`
with `age_hours = (now - dt)/3600`; it is never greater than `1`; for a
timestamp not after `now` it lies in `(0, 1]`; at clamped age `0`
(timestamp at or after `now`) it equals exactly `1`; and it strictly
decreases as the age increases. -/
theorem recency_score_spec (now dt : ℝ) :
    recency_score now dt
      = Real.exp (-(Real.log 2 / ((HALF_LIFE_HOURS : ℚ) : ℝ)) * max ((now - dt) / 3600) 0)
    ∧ recency_score now dt ≤ 1
    ∧ (dt ≤ now → 0 < recency_score now dt ∧ recency_score now dt ≤ 1)
    ∧ (now ≤ dt → recency_score now dt = 1)
    ∧ (∀ dt' : ℝ, dt' < dt → dt ≤ now → recency_score now dt' < recency_score now dt) :=
  ⟨rfl, recency_score_le_one now dt,
   fun _ => ⟨recency_score_pos now dt, recency_score_le_one now dt⟩,
   recency_score_eq_one now dt,
   fun dt' h1 h2 => recency_score_strict_anti now dt dt' h1 h2⟩

/-- Witness for `recency_score_spec` at a one-hour-old timestamp. -/
theorem recency_score_spec_witness :
    0 < recency_score 3600 0 ∧ recency_score 3600 0 ≤ 1 :=
  (recency_score_spec 3600 0).2.2.1 (by norm_num)

/-- C2 counterexample: the same entry (timestamp `0`), scored at two
different ambient clock instants, gets two different recency values —
the source's `recency_score` reads `tz_now()` implicitly, so the Scorer
is not a pure function of an explicit `(entry, now)` input. -/
theorem recency_score_clock_counterexample :
    recency_score 21600 0 ≠ recency_score 0 0 := by
  rw [recency_score_eq_one 0 0 le_rfl]
  exact ne_of_lt (recency_score_lt_one 21600 0 (by norm_num))

/-- C2 (amended): the scoring computation is deterministic in the pair
(entry timestamp, ambient clock value) and depends only on their
difference, but `now` is read implicitly via `tz_now()` inside
`recency_score` rather than passed as a parameter, so the output for a
fixed entry varies with the instant at which it runs. -/
theorem recency_score_ambient_clock :
    (∀ now dt c : ℝ, recency_score (now + c) (dt + c) = recency_score now dt)
    ∧ ∃ now₁ now₂ dt : ℝ, recency_score now₁ dt ≠ recency_score now₂ dt := by
  constructor
  · intro now dt c
    unfold recency_score
    have h : now + c - (dt + c) = now - dt := by ring
    rw [h]
  · refine ⟨21600, 0, 0, ?_⟩
    rw [recency_score_eq_one 0 0 le_rfl]
    exact ne_of_lt (recency_score_lt_one 21600 0 (by norm_num))

/-! ## Shared lemmas about impact and source weights -/

theorem detect_foldl_impact (tl : List Char) (tbl : List (String × ℚ)) :
    ∀ acc : List String × ℚ,
      (tbl.foldl (fun (acc : List String × ℚ) kw =>
          if containsSeg kw.1.data tl then (addAssets acc.1 (assetsFor kw.1), acc.2 + kw.2)
          else acc) acc).2
        = acc.2 + ((tbl.filter (fun kw => containsSeg kw.1.data tl)).map Prod.snd).sum := by
  induction tbl with
  | nil => intro acc; simp
  | cons kw tbl ih =>
    intro acc
    by_cases h : containsSeg kw.1.data tl
    · simp [h, ih]
      ring
    · simp [h, ih]

theorem detect_impact_nonneg (text : String) : 0 ≤ (detect_assets_and_impact text).2 := by
  have h := detect_foldl_impact (lowerString text).data IMPACT_KEYWORDS ([], 0)
  simp only [detect_assets_and_impact]
  rw [h, zero_add]
  apply List.sum_nonneg
  intro x hx
  simp only [List.mem_map, List.mem_filter] at hx
  obtain ⟨kw, ⟨hmem, _⟩, hkw⟩ := hx
  have hall : ∀ p ∈ IMPACT_KEYWORDS, 0 ≤ p.2 := by
    intro p hp
    fin_cases hp <;> norm_num
  rw [← hkw]
  exact hall kw hmem

theorem lookupD_bounds (tbl : List (String × ℚ)) (k : String) (d : ℚ)
    (hd : 0 ≤ d ∧ d ≤ 1) (ht : ∀ p ∈ tbl, 0 ≤ p.2 ∧ p.2 ≤ 1) :
    0 ≤ ((tbl.lookup k).getD d) ∧ ((tbl.lookup k).getD d) ≤ 1 := by
  induction tbl with
  | nil => simpa using hd
  | cons p tbl ih =>
    obtain ⟨k', b⟩ := p
    cases h : k == k' with
    | true =>
      simp only [List.lookup, h, Option.getD_some]
      exact ht ⟨k', b⟩ (by simp)
    | false =>
      simp only [List.lookup, h]
      exact ih (fun q hq => ht q (List.mem_cons_of_mem _ hq))

theorem domain_weight_bounds (link : String) :
    0 ≤ domain_weight link ∧ domain_weight link ≤ 1 := by
  unfold domain_weight
  apply lookupD_bounds
  · constructor <;> norm_num [DEFAULT_SOURCE_WEIGHT]
  · intro p hp
    fin_cases hp <;> norm_num

/-- C7: the buzz formula is monotone non-decreasing in each of impact,
source weight and recency separately, for non-negative inputs. -/
theorem buzz_formula_monotone (rec' rec2 imp imp' sw sw' : ℝ)
    (hrec : 0 ≤ rec') (himp : 0 ≤ imp) (hsw : 0 ≤ sw) :
    (imp ≤ imp' → buzz_formula rec' imp sw ≤ buzz_formula rec' imp' sw)
    ∧ (sw ≤ sw' → buzz_formula rec' imp sw ≤ buzz_formula rec' imp sw')
    ∧ (rec' ≤ rec2 → buzz_formula rec' imp sw ≤ buzz_formula rec2 imp sw) := by
  unfold buzz_formula
  refine ⟨fun h => ?_, fun h => ?_, fun h => ?_⟩
  · nlinarith [mul_nonneg hrec (sub_nonneg.mpr h)]
  · nlinarith [mul_nonneg hrec (sub_nonneg.mpr h)]
  · nlinarith [mul_nonneg (sub_nonneg.mpr h) himp, mul_nonneg (sub_nonneg.mpr h) hsw]

/-- Witness for `buzz_formula_monotone` at `rec = 1, impact 0 → 1, sw = 0`. -/
theorem buzz_formula_monotone_witness : buzz_formula 1 0 0 ≤ buzz_formula 1 1 0 :=
  (buzz_formula_monotone 1 1 0 1 0 0 (by norm_num) (by norm_num) (by norm_num)).1
    (by norm_num)

/-- C1: every row built by the orchestrator's per-entry step has
`buzz_score = recency * (0.6 + 0.3*impact + 0.1*source_weight)`; its
impact is non-negative, its source weight lies in `[0, 1]`, its recency
lies in `(0, 1]`, and consequently the buzz score is strictly
positive. -/
theorem mkRow_buzz_spec (now : ℝ) (url : String) (e : RawEntry) (r : Row)
    (h : mkRow now url e = Except.ok r) :
    r.buzz_score = r.recency * (0.6 + 0.3 * (r.impact : ℝ) + 0.1 * (r.source_weight : ℝ))
    ∧ 0 ≤ r.impact ∧ 0 ≤ r.source_weight ∧ r.source_weight ≤ 1
    ∧ 0 < r.recency ∧ r.recency ≤ 1
    ∧ 0 < r.buzz_score := by
  cases hdt : to_dt now e with
  | error u => simp [mkRow, hdt] at h
  | ok dt =>
    simp only [mkRow, hdt] at h
    obtain ⟨himp, hw⟩ :=
      And.intro (detect_impact_nonneg ((e.title.getD "") ++ " " ++ (e.summary.getD "")))
        (domain_weight_bounds (e.link.getD ""))
    have hrpos := recency_score_pos now dt
    have hrle := recency_score_le_one now dt
    rw [Except.ok.injEq] at h
    subst h
    refine ⟨rfl, himp, hw.1, hw.2, hrpos, hrle, ?_⟩
    have h1 : (0 : ℝ) ≤ (detect_assets_and_impact
        ((e.title.getD "") ++ " " ++ (e.summary.getD ""))).2 := by exact_mod_cast himp
    have h2 : (0 : ℝ) ≤ (domain_weight (e.link.getD "") : ℝ) := by exact_mod_cast hw.1
    unfold buzz_formula
    nlinarith

/-- Witness for `mkRow_buzz_spec` on a concrete entry. -/
theorem mkRow_buzz_spec_witness :
    ∃ r, mkRow 0 "u" ⟨none, none, none, some (Except.ok 0), none⟩ = Except.ok r
      ∧ 0 < r.buzz_score :=
  ⟨_, rfl, (mkRow_buzz_spec 0 "u" ⟨none, none, none, some (Except.ok 0), none⟩ _ rfl).2.2.2.2.2.2⟩

/-! ## Shared lemmas about asset-set accumulation -/

theorem addAsset_toFinset (l : List String) (a : String) :
    (addAsset l a).toFinset = insert a l.toFinset := by
  unfold addAsset
  by_cases h : a ∈ l
  · simp only [h, if_true]
    exact (Finset.insert_eq_self.mpr (List.mem_toFinset.mpr h)).symm
  · simp only [h, if_false]
    ext x
    simp [or_comm]

theorem addAssets_toFinset (m : List String) :
    ∀ l, (addAssets l m).toFinset = l.toFinset ∪ m.toFinset := by
  induction m with
  | nil => intro l; simp [addAssets]
  | cons a m ih =>
    intro l
    simp only [addAssets]
    rw [ih, addAsset_toFinset]
    ext x
    simp
    try tauto

theorem sortStrings_toFinset (l : List String) : (sortStrings l).toFinset = l.toFinset :=
  List.toFinset_eq_of_perm _ _ (List.perm_insertionSort _ l)

theorem detect_foldl_assets (tl : List Char) (tbl : List (String × ℚ)) :
    ∀ acc : List String × ℚ,
      ((tbl.foldl (fun (acc : List String × ℚ) kw =>
          if containsSeg kw.1.data tl then (addAssets acc.1 (assetsFor kw.1), acc.2 + kw.2)
          else acc) acc).1).toFinset
        = acc.1.toFinset ∪
          ((tbl.filter (fun kw => containsSeg kw.1.data tl)).map
            (fun kw => (assetsFor kw.1).toFinset)).foldr (· ∪ ·) ∅ := by
  induction tbl with
  | nil => intro acc; simp
  | cons kw tbl ih =>
    intro acc
    by_cases h : containsSeg kw.1.data tl
    · simp only [List.foldl_cons, h, if_true, List.filter_cons, List.map_cons, List.foldr_cons]
      rw [ih, addAssets_toFinset, Finset.union_assoc]
    · simp [h, ih]

/-- C6: the detection step agrees with the specification reading —
impact is the sum of the weights of the distinct matched keywords (each
counted once, lowercase substring match), and the asset set is the
union of the matched keywords' asset lists plus the two fixed index
assets when a `$TICKER` token occurs. -/
theorem detect_assets_and_impact_spec (text : String) :
    (detect_assets_and_impact text).2 = specImpact text
    ∧ ((detect_assets_and_impact text).1).toFinset = specAssets text := by
  have hkeys : ∀ kw ∈ IMPACT_KEYWORDS, lowerString kw.1 = kw.1 := by decide
  have hfilter :
      IMPACT_KEYWORDS.filter
          (fun kw => containsSeg (lowerString kw.1).data (lowerString text).data)
        = IMPACT_KEYWORDS.filter (fun kw => containsSeg kw.1.data (lowerString text).data) := by
    apply List.filter_congr
    intro kw hkw
    rw [hkeys kw hkw]
  constructor
  · simp only [detect_assets_and_impact]
    rw [detect_foldl_impact (lowerString text).data IMPACT_KEYWORDS ([], 0), zero_add]
    unfold specImpact
    rw [hfilter]
  · simp only [detect_assets_and_impact]
    rw [sortStrings_toFinset]
    unfold specAssets tickerAssets
    rw [hfilter]
    by_cases ht : hasTicker text.data
    · rw [if_pos ht, if_pos ht, addAssets_toFinset,
        detect_foldl_assets (lowerString text).data IMPACT_KEYWORDS ([], 0)]
      simp
    · rw [if_neg ht, if_neg ht,
        detect_foldl_assets (lowerString text).data IMPACT_KEYWORDS ([], 0)]
      simp

/-! ## Shared lemmas about `dedupById` -/

theorem dedupByIdAux_not_seen (rows : List Row) :
    ∀ seen, ∀ r ∈ dedupByIdAux seen rows, r.id ∉ seen := by
  induction rows with
  | nil => intro seen r hr; simp [dedupByIdAux] at hr
  | cons x rows ih =>
    intro seen r hr
    by_cases h : x.id ∈ seen
    · simp only [dedupByIdAux] at hr
      rw [if_pos h] at hr
      exact ih seen r hr
    · simp only [dedupByIdAux] at hr
      rw [if_neg h] at hr
      rcases List.mem_cons.mp hr with rfl | hr'
      · exact h
      · exact fun hc => ih (x.id :: seen) r hr' (List.mem_cons_of_mem _ hc)

theorem dedupByIdAux_nodup (rows : List Row) :
    ∀ seen, ((dedupByIdAux seen rows).map Row.id).Nodup := by
  induction rows with
  | nil => intro seen; simp [dedupByIdAux]
  | cons x rows ih =>
    intro seen
    by_cases h : x.id ∈ seen
    · simp only [dedupByIdAux]
      rw [if_pos h]
      exact ih seen
    · simp only [dedupByIdAux]
      rw [if_neg h]
      simp only [List.map_cons, List.nodup_cons]
      refine ⟨fun hc => ?_, ih (x.id :: seen)⟩
      obtain ⟨r, hr, hrid⟩ := List.mem_map.mp hc
      exact dedupByIdAux_not_seen rows (x.id :: seen) r hr
        (by rw [hrid]; exact List.mem_cons_self _ _)

theorem find_eq_filter_head {α : Type} (p : α → Bool) (l : List α) :
    l.find? p = (l.filter p).head? := by
  induction l with
  | nil => simp
  | cons a l ih =>
    by_cases h : p a = true
    · rw [List.find?_cons_of_pos _ h, List.filter_cons_of_pos h]
      rfl
    · rw [List.find?_cons_of_neg _ h, List.filter_cons_of_neg h]
      exact ih

theorem dedupByIdAux_count (rows : List Row) (i : String) :
    ∀ seen, ((dedupByIdAux seen rows).filter (fun r => r.id == i)).length
      = if i ∈ seen then 0 else if i ∈ rows.map Row.id then 1 else 0 := by
  induction rows with
  | nil => intro seen; by_cases h : i ∈ seen <;> simp [dedupByIdAux, h]
  | cons x rows ih =>
    intro seen
    by_cases hx : x.id ∈ seen
    · simp only [dedupByIdAux]
      rw [if_pos hx, ih seen]
      by_cases hi : i ∈ seen
      · simp [hi]
      · have hne : i ≠ x.id := fun hh => hi (hh ▸ hx)
        simp [hi, List.mem_cons, hne]
    · simp only [dedupByIdAux]
      rw [if_neg hx, List.filter_cons]
      by_cases hxi : x.id = i
      · subst hxi
        simp only [beq_self_eq_true, if_true, List.length_cons]
        rw [ih (x.id :: seen)]
        simp [hx, List.mem_cons_self]
      · have hne : i ≠ x.id := fun hh => hxi hh.symm
        have hbeq : (x.id == i) = false := beq_eq_false_iff_ne.mpr hxi
        rw [hbeq]
        simp only [Bool.false_eq_true, if_false]
        rw [ih (x.id :: seen)]
        by_cases hi : i ∈ seen
        · simp [hi, List.mem_cons]
        · simp [hi, List.mem_cons, hne]

theorem dedupByIdAux_find (rows : List Row) :
    ∀ seen, ∀ r ∈ dedupByIdAux seen rows,
      rows.find? (fun x => x.id == r.id) = some r := by
  induction rows with
  | nil => intro seen r hr; simp [dedupByIdAux] at hr
  | cons x rows ih =>
    intro seen r hr
    by_cases hx : x.id ∈ seen
    · simp only [dedupByIdAux] at hr
      rw [if_pos hx] at hr
      have hnot := dedupByIdAux_not_seen rows seen r hr
      have hne : x.id ≠ r.id := fun hh => hnot (hh ▸ hx)
      rw [find_eq_filter_head, List.filter_cons, beq_eq_false_iff_ne.mpr hne]
      simp only [Bool.false_eq_true, if_false]
      rw [← find_eq_filter_head]
      exact ih seen r hr
    · simp only [dedupByIdAux] at hr
      rw [if_neg hx] at hr
      rcases List.mem_cons.mp hr with rfl | hr'
      · rw [find_eq_filter_head, List.filter_cons]
        simp
      · have hnot := dedupByIdAux_not_seen rows (x.id :: seen) r hr'
        have hne : x.id ≠ r.id := fun hh => hnot (hh ▸ List.mem_cons_self _ _)
        rw [find_eq_filter_head, List.filter_cons, beq_eq_false_iff_ne.mpr hne]
        simp only [Bool.false_eq_true, if_false]
        rw [← find_eq_filter_head]
        exact ih (x.id :: seen) r hr'

/-- C3: equal `(title, link)` pairs hash to equal ids; for every id
present in the input, the deduplicated list holds exactly one row with
that id, namely the first input occurrence; the deduplicated list has
pairwise-distinct ids, and so does the orchestrator's final output. -/
theorem dedup_unique_ids (rows : List Row) :
    (∀ t₁ l₁ t₂ l₂ : Option String, t₁ = t₂ → l₁ = l₂ → hash_id t₁ l₁ = hash_id t₂ l₂)
    ∧ (∀ i : String, i ∈ rows.map Row.id →
        ((dedupById rows).filter (fun r => r.id == i)).length = 1
        ∧ (dedupById rows).find? (fun r => r.id == i) = rows.find? (fun r => r.id == i))
    ∧ ((dedupById rows).map Row.id).Nodup
    ∧ (∀ (fetch' : String → Except Unit (List RawEntry)) (now : ℝ)
        (feeds : List String) (m : ℕ),
        ((fetch_all fetch' now feeds m).map Row.id).Nodup) := by
  have hcount : ∀ i ∈ rows.map Row.id,
      ((dedupById rows).filter (fun r => r.id == i)).length = 1 := by
    intro i hi
    unfold dedupById
    rw [dedupByIdAux_count rows i []]
    simp [hi]
  refine ⟨fun t₁ l₁ t₂ l₂ h1 h2 => by rw [h1, h2],
    fun i hi => ⟨hcount i hi, ?_⟩, dedupByIdAux_nodup rows [], ?_⟩
  · have hpos : 0 < ((dedupById rows).filter (fun r => r.id == i)).length := by
      rw [hcount i hi]
      norm_num
    obtain ⟨r, hr⟩ := List.length_pos_iff_exists_mem.mp hpos
    have hrmem := (List.mem_filter.mp hr).1
    have hid : r.id = i := by simpa using (List.mem_filter.mp hr).2
    subst hid
    have hfind := dedupByIdAux_find rows [] r hrmem
    rw [hfind, find_eq_filter_head]
    obtain ⟨a, ha⟩ := List.length_eq_one.mp (hcount r.id hi)
    rw [ha]
    have hra : r ∈ [a] := ha ▸ hr
    simp only [List.mem_singleton] at hra
    rw [hra]
    rfl
  · intro fetch' now feeds m
    unfold fetch_all
    by_cases hc : (collectRows fetch' now m feeds).isEmpty
    · simp [hc]
    · simp only [hc, if_false]
      have hperm :
          (sortByBuzzDesc (dedupById (collectRows fetch' now m feeds))).Perm
            (dedupById (collectRows fetch' now m feeds)) :=
        List.perm_insertionSort _ _
      exact ((hperm.map Row.id).nodup_iff).mpr (dedupByIdAux_nodup _ [])

/-- Witness for `dedup_unique_ids` on a one-row list. -/
theorem dedup_unique_ids_witness :
    ((dedupById [exampleRow]).filter (fun r => r.id == "i")).length = 1 :=
  ((dedup_unique_ids [exampleRow]).2.1 "i" (by simp [exampleRow])).1

/-! ## Shared lemmas about `aggregate_trends` -/

instance : IsTotal TrendRow trendLe :=
  ⟨fun t u => by
    unfold trendLe
    rcases lt_trichotomy t.count u.count with h | h | h
    · exact Or.inr (Or.inl h)
    · rcases le_total u.avg_buzz t.avg_buzz with ha | ha
      · exact Or.inl (Or.inr ⟨h, ha⟩)
      · exact Or.inr (Or.inr ⟨h.symm, ha⟩)
    · exact Or.inl (Or.inl h)⟩

instance : IsTrans TrendRow trendLe :=
  ⟨fun a b c hab hbc => by
    unfold trendLe at *
    rcases hab with h1 | ⟨e1, a1⟩ <;> rcases hbc with h2 | ⟨e2, a2⟩
    · exact Or.inl (lt_trans h2 h1)
    · exact Or.inl (by omega)
    · exact Or.inl (by omega)
    · exact Or.inr ⟨by omega, le_trans a2 a1⟩⟩

theorem filter_map_pair_length (a : String) (q : ℚ) (l : List String) :
    ((l.map (fun x => (x, q))).filter (fun p => p.1 == a)).length = l.count a := by
  induction l with
  | nil => simp
  | cons x l ih =>
    by_cases h : x = a
    · subst h
      simp [List.filter_cons, List.count_cons, ih]
    · simp [List.filter_cons, List.count_cons, h, Ne.symm h, ih]

theorem filter_map_pair_sum (a : String) (q : ℚ) (l : List String) :
    (((l.map (fun x => (x, q))).filter (fun p => p.1 == a)).map Prod.snd).sum
      = (l.count a : ℚ) * q := by
  induction l with
  | nil => simp
  | cons x l ih =>
    by_cases h : x = a
    · subst h
      simp only [List.map_cons, List.filter_cons, beq_self_eq_true, if_true,
        List.count_cons, beq_self_eq_true]
      simp [ih]
      ring
    · simp [List.filter_cons, List.count_cons, h, Ne.symm h, ih]

theorem explode_filter_length (a : String) :
    ∀ dff : List DfRow, (∀ r ∈ dff, r.assets.Nodup) →
      ((explodeAssets dff).filter (fun p => p.1 == a)).length
        = (dff.filter (fun r => a ∈ r.assets)).length := by
  intro dff
  induction dff with
  | nil => intro _; simp [explodeAssets]
  | cons r rs ih =>
    intro hnd
    simp only [explodeAssets, List.filter_append, List.length_append]
    rw [filter_map_pair_length, ih (fun x hx => hnd x (List.mem_cons_of_mem _ hx))]
    have hrnd := hnd r (List.mem_cons_self _ _)
    by_cases h : a ∈ r.assets
    · rw [List.count_eq_one_of_mem hrnd h, List.filter_cons_of_pos (by simp [h])]
      simp [Nat.add_comm]
    · rw [List.count_eq_zero_of_not_mem h, List.filter_cons_of_neg (by simp [h])]
      simp

theorem explode_filter_sum (a : String) :
    ∀ dff : List DfRow, (∀ r ∈ dff, r.assets.Nodup) →
      (((explodeAssets dff).filter (fun p => p.1 == a)).map Prod.snd).sum
        = ((dff.filter (fun r => a ∈ r.assets)).map DfRow.buzz_score).sum := by
  intro dff
  induction dff with
  | nil => intro _; simp [explodeAssets]
  | cons r rs ih =>
    intro hnd
    simp only [explodeAssets, List.filter_append, List.map_append, List.sum_append]
    rw [filter_map_pair_sum, ih (fun x hx => hnd x (List.mem_cons_of_mem _ hx))]
    have hrnd := hnd r (List.mem_cons_self _ _)
    by_cases h : a ∈ r.assets
    · rw [List.count_eq_one_of_mem hrnd h, List.filter_cons_of_pos (by simp [h])]
      simp
    · rw [List.count_eq_zero_of_not_mem h, List.filter_cons_of_neg (by simp [h])]
      simp

theorem explode_nil_of_empty_assets :
    ∀ l : List DfRow, (∀ r ∈ l, r.assets = []) → explodeAssets l = [] := by
  intro l
  induction l with
  | nil => intro _; rfl
  | cons r rs ih =>
    intro h
    simp only [explodeAssets, h r (List.mem_cons_self _ _), List.map_nil, List.nil_append]
    exact ih (fun x hx => h x (List.mem_cons_of_mem _ hx))

theorem aggregate_mem (df : List DfRow) (w now : ℚ) (t : TrendRow)
    (ht : t ∈ aggregate_trends df w now) :
    ∃ a, t = trendFor (explodeAssets (df.filter (fun r => now - w * 60 ≤ r.time))) a := by
  unfold aggregate_trends at ht
  by_cases h1 : df.isEmpty
  · rw [if_pos h1] at ht
    simp at ht
  rw [if_neg h1] at ht
  by_cases h2 : (df.filter (fun r => now - w * 60 ≤ r.time)).isEmpty
  · rw [if_pos h2] at ht
    simp at ht
  rw [if_neg h2] at ht
  by_cases h3 : (explodeAssets (df.filter (fun r => now - w * 60 ≤ r.time))).isEmpty
  · rw [if_pos h3] at ht
    simp at ht
  rw [if_neg h3] at ht
  have hmem := (List.perm_insertionSort trendLe _).mem_iff.mp ht
  obtain ⟨a, _, rfl⟩ := List.mem_map.mp hmem
  exact ⟨a, rfl⟩

/-- C8: every trend row's `count` is the number of window-retained
items whose asset set contains that asset, and `avg_buzz` is the mean
of those items' buzz scores; the output is sorted by count descending
then average buzz descending; and empty input, empty post-filter set,
or retained items with no assets all yield the explicitly empty
result. -/
theorem aggregate_trends_spec (df : List DfRow) (w now : ℚ)
    (hnd : ∀ r ∈ df, r.assets.Nodup) :
    (∀ t ∈ aggregate_trends df w now,
        t.count = ((df.filter (fun r => now - w * 60 ≤ r.time)).filter
            (fun r => t.asset ∈ r.assets)).length
        ∧ t.avg_buzz = (((df.filter (fun r => now - w * 60 ≤ r.time)).filter
            (fun r => t.asset ∈ r.assets)).map DfRow.buzz_score).sum / (t.count : ℚ))
    ∧ (aggregate_trends df w now).Sorted trendLe
    ∧ (df = [] → aggregate_trends df w now = [])
    ∧ (df.filter (fun r => now - w * 60 ≤ r.time) = [] → aggregate_trends df w now = [])
    ∧ ((∀ r ∈ df.filter (fun r => now - w * 60 ≤ r.time), r.assets = []) →
        aggregate_trends df w now = []) := by
  have hndf : ∀ r ∈ df.filter (fun r => now - w * 60 ≤ r.time), r.assets.Nodup :=
    fun r hr => hnd r (List.mem_of_mem_filter hr)
  refine ⟨?_, ?_, ?_, ?_, ?_⟩
  · intro t ht
    obtain ⟨a, rfl⟩ := aggregate_mem df w now t ht
    constructor
    · simp only [trendFor]
      rw [List.length_map]
      exact explode_filter_length a _ hndf
    · simp only [trendFor]
      rw [List.length_map, explode_filter_sum a _ hndf, explode_filter_length a _ hndf]
  · unfold aggregate_trends
    by_cases h1 : df.isEmpty
    · rw [if_pos h1]
      exact List.sorted_nil
    rw [if_neg h1]
    by_cases h2 : (df.filter (fun r => now - w * 60 ≤ r.time)).isEmpty
    · rw [if_pos h2]
      exact List.sorted_nil
    rw [if_neg h2]
    by_cases h3 : (explodeAssets (df.filter (fun r => now - w * 60 ≤ r.time))).isEmpty
    · rw [if_pos h3]
      exact List.sorted_nil
    rw [if_neg h3]
    exact List.sorted_insertionSort trendLe _
  · intro h
    subst h
    rfl
  · intro h
    unfold aggregate_trends
    by_cases h1 : df.isEmpty
    · rw [if_pos h1]
    · rw [if_neg h1, h]
      simp only [List.isEmpty_nil, if_true]
  · intro h
    have hpairs := explode_nil_of_empty_assets _ h
    unfold aggregate_trends
    by_cases h1 : df.isEmpty
    · rw [if_pos h1]
    by_cases h2 : (df.filter (fun r => now - w * 60 ≤ r.time)).isEmpty
    · rw [if_neg h1, if_pos h2]
    rw [if_neg h1, if_neg h2, hpairs]
    simp only [List.isEmpty_nil, if_true]

/-- Witness for `aggregate_trends_spec` on a one-item frame. -/
theorem aggregate_trends_spec_witness :
    (aggregate_trends [⟨0, ["USD"], 1⟩] 1 0).Sorted trendLe :=
  (aggregate_trends_spec [⟨0, ["USD"], 1⟩] 1 0 (by decide)).2.1

/-! ## Shared lemmas about the orchestrator -/

theorem processEntries_eq (now : ℝ) (url : String) :
    ∀ es : List RawEntry,
      processEntries now url es
        = (es.takeWhile (fun e => (mkRow now url e).toOption.isSome)).filterMap
            (fun e => (mkRow now url e).toOption) := by
  intro es
  induction es with
  | nil => rfl
  | cons e es ih =>
    cases hm : mkRow now url e with
    | ok r =>
      simp only [processEntries, hm, List.takeWhile_cons, Except.toOption, Option.isSome_some,
        if_true, List.filterMap_cons, ih]
    | error u =>
      simp only [processEntries, hm, List.takeWhile_cons, Except.toOption, Option.isSome_none,
        Bool.false_eq_true, if_false, List.filterMap_nil]

theorem processEntries_length_le (now : ℝ) (url : String) :
    ∀ es : List RawEntry, (processEntries now url es).length ≤ es.length := by
  intro es
  induction es with
  | nil => exact le_rfl
  | cons e es ih =>
    cases hm : mkRow now url e with
    | ok r =>
      simp only [processEntries, hm, List.length_cons]
      exact Nat.succ_le_succ ih
    | error u =>
      simp only [processEntries, hm, List.length_nil, List.length_cons]
      exact Nat.zero_le _

theorem mem_collectRows (fetch' : String → Except Unit (List RawEntry)) (now : ℝ) (m : ℕ)
    (url : String) (r : Row) (hr : r ∈ sourceRows fetch' now m url) :
    ∀ feeds : List String, url ∈ feeds → r ∈ collectRows fetch' now m feeds := by
  intro feeds
  induction feeds with
  | nil => intro h; simp at h
  | cons u us ih =>
    intro h
    simp only [collectRows, List.mem_append]
    rcases List.mem_cons.mp h with rfl | h'
    · exact Or.inl hr
    · exact Or.inr (ih h')

theorem mem_dedupById_head (r : Row) (rest : List Row) : r ∈ dedupById (r :: rest) := by
  simp only [dedupById, dedupByIdAux, List.not_mem_nil, if_false]
  exact List.mem_cons_self _ _

/-- C9 (amended): the orchestrator is total (never raises) and each
source contributes independently: a source whose fetch/parse fails
contributes nothing; a source that parses contributes the rows of its
first `maxItems` entries up to (and excluding) its first raising entry
— so a source failing mid-processing still contributes the prefix
appended before the failure; each source contributes at most `maxItems`
rows; when nothing is collected the result is the explicitly empty
frame; and the output is a permutation of the deduplicated collected
rows. -/
theorem fetch_all_partial_failure (fetch' : String → Except Unit (List RawEntry))
    (now : ℝ) (m : ℕ) (feeds : List String) :
    collectRows fetch' now m feeds = (feeds.map (sourceRows fetch' now m)).flatten
    ∧ (∀ url, fetch' url = Except.error () → sourceRows fetch' now m url = [])
    ∧ (∀ url es, fetch' url = Except.ok es →
        sourceRows fetch' now m url
          = ((es.take m).takeWhile (fun e => (mkRow now url e).toOption.isSome)).filterMap
              (fun e => (mkRow now url e).toOption))
    ∧ (∀ url, (sourceRows fetch' now m url).length ≤ m)
    ∧ (collectRows fetch' now m feeds = [] → fetch_all fetch' now feeds m = [])
    ∧ (fetch_all fetch' now feeds m).Perm (dedupById (collectRows fetch' now m feeds)) := by
  refine ⟨?_, ?_, ?_, ?_, ?_, ?_⟩
  · induction feeds with
    | nil => rfl
    | cons u us ih => simp [collectRows, ih]
  · intro url h
    simp [sourceRows, h]
  · intro url es h
    simp only [sourceRows, h]
    exact processEntries_eq now url (es.take m)
  · intro url
    unfold sourceRows
    cases h : fetch' url with
    | error u => simp
    | ok es =>
      exact le_trans (processEntries_length_le now url (es.take m)) (List.length_take_le m es)
  · intro h
    unfold fetch_all
    rw [h]
    rfl
  · unfold fetch_all
    by_cases hc : (collectRows fetch' now m feeds).isEmpty
    · rw [if_pos hc, List.isEmpty_iff.mp hc]
      exact List.Perm.refl _
    · rw [if_neg hc]
      exact List.perm_insertionSort _ _

/-- Witness for `fetch_all_partial_failure`: a fetch collaborator that
always fails yields an empty per-source contribution. -/
theorem fetch_all_partial_failure_witness :
    sourceRows (fun _ => Except.error ()) 0 50 "A" = [] :=
  (fetch_all_partial_failure (fun _ => Except.error ()) 0 50 []).2.1 "A" rfl

/-- C9 counterexample: with the concrete fetcher `exFetch`, source
`"A"` parses but raises while processing its second entry — it is not a
successful source — yet the orchestrator's output still contains the
row of A's first entry, which no successful source produced.  The
output is therefore not "exactly the union of the successful sources'
items". -/
theorem fetch_all_keeps_failed_source_prefix :
    (∃ e ∈ ((exFetch "A").toOption.getD []), mkRow 0 "A" e = Except.error ())
    ∧ ∃ r, mkRow 0 "A" eGoodA = Except.ok r
        ∧ r ∈ fetch_all exFetch 0 ["A", "B"] 50
        ∧ r ∉ sourceRows exFetch 0 50 "B" := by
  obtain ⟨r, hA⟩ : ∃ r, mkRow 0 "A" eGoodA = Except.ok r := ⟨_, rfl⟩
  obtain ⟨rB, hB⟩ : ∃ r, mkRow 0 "B" eGoodB = Except.ok r := ⟨_, rfl⟩
  have hbad : mkRow 0 "A" eBadA = Except.error () := rfl
  have hfA : exFetch "A" = Except.ok [eGoodA, eBadA] := rfl
  have htermA : ((mkRow 0 "A" eGoodA).toOption.map Row.title).getD "" = "Fed signals rate cut" :=
    rfl
  have htermB : ((mkRow 0 "B" eGoodB).toOption.map Row.title).getD "" = "Oil rises" := rfl
  have htA : r.title = "Fed signals rate cut" := by
    rw [hA] at htermA
    simpa [Except.toOption] using htermA
  have htB : rB.title = "Oil rises" := by
    rw [hB] at htermB
    simpa [Except.toOption] using htermB
  have hsrcA : sourceRows exFetch 0 50 "A" = [r] := by
    have h0 : sourceRows exFetch 0 50 "A" = processEntries 0 "A" [eGoodA, eBadA] := rfl
    rw [h0]
    simp only [processEntries, hA, hbad]
  have hsrcB : sourceRows exFetch 0 50 "B" = [rB] := by
    have h0 : sourceRows exFetch 0 50 "B" = processEntries 0 "B" [eGoodB] := rfl
    rw [h0]
    simp only [processEntries, hB]
  have hcol : collectRows exFetch 0 50 ["A", "B"] = r :: sourceRows exFetch 0 50 "B" := by
    simp [collectRows, hsrcA]
  constructor
  · refine ⟨eBadA, ?_, hbad⟩
    rw [hfA]
    simp [Except.toOption]
  · refine ⟨r, hA, ?_, ?_⟩
    · unfold fetch_all
      have hne : ¬(collectRows exFetch 0 50 ["A", "B"]).isEmpty := by
        rw [hcol]
        simp
      rw [if_neg hne]
      apply (List.perm_insertionSort _ _).mem_iff.mpr
      rw [hcol]
      exact mem_dedupById_head _ _
    · rw [hsrcB]
      intro hmem
      rw [List.mem_singleton] at hmem
      rw [hmem, htB] at htA
      simp at htA

/-- C10: `hash_id` hashes the bare concatenation of the UTF-8 bytes of
`title or ""` and `link or ""` with no separator: any two
(title, link) pairs with equal concatenated bytes get the same id, and
two rows carrying the ids of two such pairs are collapsed into one by
the deduplication step (keeping the first); a missing (`none`) title or
link hashes like the empty string. -/
theorem hash_id_concat (t₁ l₁ t₂ l₂ : Option String)
    (h : utf8Bytes (t₁.getD "") ++ utf8Bytes (l₁.getD "")
        = utf8Bytes (t₂.getD "") ++ utf8Bytes (l₂.getD "")) :
    hash_id t₁ l₁ = hash_id t₂ l₂
    ∧ hash_id none l₁ = hash_id (some "") l₁
    ∧ ∀ r₁ r₂ : Row, r₁.id = hash_id t₁ l₁ → r₂.id = hash_id t₂ l₂ →
        dedupById [r₁, r₂] = [r₁] := by
  have hmain : hash_id t₁ l₁ = hash_id t₂ l₂ := by
    unfold hash_id
    rw [h]
  refine ⟨hmain, rfl, fun r₁ r₂ h1 h2 => ?_⟩
  have hid : r₂.id = r₁.id := by rw [h1, h2, hmain]
  simp [dedupById, dedupByIdAux, hid]

/-- Witness for `hash_id_concat` at `("ab", "c")` versus `("a", "bc")`:
the two distinct (title, link) pairs share one id. -/
theorem hash_id_concat_witness :
    hash_id (some "ab") (some "c") = hash_id (some "a") (some "bc") :=
  (hash_id_concat (some "ab") (some "c") (some "a") (some "bc") (by decide)).1
